import Mathlib

/-!
# Verification of `ratatui-auto-grid`

Shallow embedding of `src/lib.rs`: the public function `auto_grid` splits a
rectangular `area` into `n` cells arranged in an automatic grid, with a given
`spacing` between cells.

The `u16`/`usize` fields of the Rust code are modelled as `Nat`; numeric
overflow is outside the documented contract (spec §7).  The proportional
splitting primitive (`ratatui::layout::Layout`) is an external dependency
whose code is not part of this repository; it is modelled from the spec's
description of it (§4.2, §6, §9), in the definitions marked
`Modelled from the spec`.
-/

/-- `ratatui::layout::Rect`: a rectangle with top-left corner `(x, y)` and
size `width × height`. -/
structure Rect where
  x : Nat
  y : Nat
  width : Nat
  height : Nat
  deriving DecidableEq, Repr, Inhabited

/-- Search upward from `c` for the first `c` with `n ≤ c * c`, with enough
fuel to reach it. -/
def ceilSqrtAux (n : Nat) : Nat → Nat → Nat
  | 0, c => c
  | fuel + 1, c => if n ≤ c * c then c else ceilSqrtAux n fuel (c + 1)

/-- `(n as f64).sqrt().ceil()` from `auto_grid`, in exact real arithmetic:
the least `c` with `n ≤ c * c`.  For `n` in the documented range the `f64`
square root is exactly rounded, so the cast result equals this integer. -/
def ceilSqrt (n : Nat) : Nat :=
  ceilSqrtAux n n 0

/-- `((n as f64) / f64::from(k)).ceil()` from `auto_grid`: the ceiling
division `⌈n / k⌉`, exact for `n`, `k` in the documented range. -/
def ceilDiv (n k : Nat) : Nat :=
  (n + k - 1) / k

/-- The column count `cols = (n as f64).sqrt().ceil() as u16` chosen by
`auto_grid` for `n` cells. -/
def gridCols (n : Nat) : Nat :=
  ceilSqrt n

/-- The row count `rows = ((n as f64) / f64::from(cols)).ceil() as u16`
chosen by `auto_grid` for `n` cells. -/
def gridRows (n : Nat) : Nat :=
  ceilDiv n (gridCols n)

/-- Modelled from the spec: the proportional layout splitter
(`ratatui::layout::Layout` with `k` equal `Ratio(1, k)` constraints and
spacing `s`) is not part of this repository.  Per §9, it divides the
available extent — `len` minus the total spacing `(k - 1) * s` — evenly
among the `k` shares, earlier bands receiving the remainder units (§4.2),
and lays out consecutive bands separated by `s`-wide gaps.
`rawStart pos len k s i` is the unclamped start offset of band `i`: `pos`,
plus the sizes of the `i` bands before it, plus `i` gaps. -/
def rawStart (pos len k s i : Nat) : Nat :=
  pos + i * ((len - (k - 1) * s) / k) + min i ((len - (k - 1) * s) % k) + i * s

/-- Modelled from the spec: the unclamped end offset of band `i` — its start
plus its size, the even share `avail / k` plus one more unit when `i` is
below the remainder `avail % k`. -/
def rawEnd (pos len k s i : Nat) : Nat :=
  pos + (i + 1) * ((len - (k - 1) * s) / k) + min (i + 1) ((len - (k - 1) * s) % k) + i * s

/-- Modelled from the spec: band starts are kept within the input extent
(§6: the returned sub-rectangles fit in the input extent; §3: no cell's edge
exceeds the area's edge). -/
def bandStart (pos len k s i : Nat) : Nat :=
  min (rawStart pos len k s i) (pos + len)

/-- Modelled from the spec: band ends, kept within the input extent. -/
def bandEnd (pos len k s i : Nat) : Nat :=
  min (rawEnd pos len k s i) (pos + len)

/-- Modelled from the spec: the size of band `i` after clamping. -/
def bandLen (pos len k s i : Nat) : Nat :=
  bandEnd pos len k s i - bandStart pos len k s i

/-- Modelled from the spec:
`Layout::vertical(row_constraints).spacing(spacing).split(area)` with `k`
`Ratio(1, k)` constraints — `k` row bands stacked top to bottom, each
spanning the area's full width. -/
def splitVertical (area : Rect) (k s : Nat) : List Rect :=
  (List.range k).map fun i =>
    { x := area.x
      y := bandStart area.y area.height k s i
      width := area.width
      height := bandLen area.y area.height k s i }

/-- Modelled from the spec:
`Layout::horizontal(col_constraints).spacing(spacing).split(row_area)` with
`k` `Ratio(1, k)` constraints — `k` cells laid left to right, each spanning
the row band's full height. -/
def splitHorizontal (area : Rect) (k s : Nat) : List Rect :=
  (List.range k).map fun i =>
    { x := bandStart area.x area.width k s i
      y := area.y
      width := bandLen area.x area.width k s i
      height := area.height }

/-- The inner `for &rect in col_areas.iter()` loop of `auto_grid`: push the
cells of one row band onto `out`, stopping as soon as `out` holds `n`
cells. -/
def pushCells (n : Nat) : List Rect → List Rect → List Rect
  | out, [] => out
  | out, c :: cs => if out.length = n then out else pushCells n (out ++ [c]) cs

/-- The outer `for r in 0..rows` loop of `auto_grid`: split each remaining
row band horizontally and push its cells, until `out` holds `n` cells. -/
def pushRows (cols s n : Nat) : List Rect → List Rect → List Rect
  | out, [] => out
  | out, ra :: rest =>
      let out2 := pushCells n out (splitHorizontal ra cols s)
      if out2.length = n then out2 else pushRows cols s n out2 rest

/-- `auto_grid` from `src/lib.rs`: for `n = 0` return an empty vector;
otherwise choose `cols = ceil(sqrt n)` and `rows = ceil(n / cols)`, split
`area` vertically into `rows` row bands, then walk the row bands top to
bottom, split each horizontally into `cols` cells, and push cells until
exactly `n` have been collected. -/
def auto_grid (area : Rect) (n : Nat) (spacing : Nat) : List Rect :=
  if n = 0 then [] else
    pushRows (gridCols n) spacing n [] (splitVertical area (gridRows n) spacing)

/-- All `rows * cols` cells generated by the two-pass split of `auto_grid`
before truncation, in row-major order. -/
def fullCells (area : Rect) (n s : Nat) : List Rect :=
  ((splitVertical area (gridRows n) s).map fun ra =>
    splitHorizontal ra (gridCols n) s).flatten

/-- Closed form for the cell at row-major index `j` of the grid: it sits in
column `j % cols` of row `j / cols`. -/
def gridCell (area : Rect) (cols rows s j : Nat) : Rect :=
  { x := bandStart area.x area.width cols s (j % cols)
    y := bandStart area.y area.height rows s (j / cols)
    width := bandLen area.x area.width cols s (j % cols)
    height := bandLen area.y area.height rows s (j / cols) }

/-! ## The dimension selector -/

lemma ceilSqrtAux_sq_ge (n : Nat) :
    ∀ fuel c, n ≤ (c + fuel) * (c + fuel) →
      n ≤ ceilSqrtAux n fuel c * ceilSqrtAux n fuel c := by
  intro fuel
  induction fuel with
  | zero =>
      intro c h
      simpa [ceilSqrtAux] using h
  | succ fuel ih =>
      intro c h
      by_cases hc : n ≤ c * c
      · simp [ceilSqrtAux, hc]
      · simp only [ceilSqrtAux, if_neg hc]
        refine ih (c + 1) ?_
        have e : c + (fuel + 1) = c + 1 + fuel := by omega
        rwa [e] at h

lemma ceilSqrtAux_lt_sq (n : Nat) :
    ∀ fuel c, (∀ d, d < c → d * d < n) →
      ∀ d, d < ceilSqrtAux n fuel c → d * d < n := by
  intro fuel
  induction fuel with
  | zero =>
      intro c hinv d hd
      exact hinv d (by simpa [ceilSqrtAux] using hd)
  | succ fuel ih =>
      intro c hinv d hd
      by_cases hc : n ≤ c * c
      · exact hinv d (by simpa [ceilSqrtAux, hc] using hd)
      · refine ih (c + 1) ?_ d (by simpa [ceilSqrtAux, hc] using hd)
        intro e he
        rcases Nat.lt_or_ge e c with h1 | h1
        · exact hinv e h1
        · have : e = c := by omega
          subst this
          omega

/-- `ceilSqrt n` squared is at least `n`. -/
lemma sq_ceilSqrt_ge (n : Nat) : n ≤ ceilSqrt n * ceilSqrt n := by
  refine ceilSqrtAux_sq_ge n n 0 ?_
  rcases n with _ | m
  · simp
  · simp only [Nat.zero_add]
    exact Nat.le_mul_of_pos_left (m + 1) (Nat.succ_pos m)

/-- Everything below `ceilSqrt n` squares to less than `n`. -/
lemma lt_of_lt_ceilSqrt {n d : Nat} (h : d < ceilSqrt n) : d * d < n :=
  ceilSqrtAux_lt_sq n n 0 (fun d hd => by omega) d h

/-- `ceilSqrt n` is the least `c` with `n ≤ c * c`. -/
lemma ceilSqrt_le {n c : Nat} (h : n ≤ c * c) : ceilSqrt n ≤ c := by
  by_contra hlt
  push_neg at hlt
  have := lt_of_lt_ceilSqrt hlt
  omega

lemma gridCols_pos {n : Nat} (hn : 1 ≤ n) : 1 ≤ gridCols n := by
  by_contra h
  push_neg at h
  have h0 : gridCols n = 0 := by omega
  have hsq := sq_ceilSqrt_ge n
  unfold gridCols at h0
  rw [h0] at hsq
  omega

lemma gridRows_pos {n : Nat} (hn : 1 ≤ n) : 1 ≤ gridRows n := by
  have hc := gridCols_pos hn
  unfold gridRows ceilDiv
  rw [Nat.one_le_div_iff hc]
  omega

/-- The selected shape covers `n` cells: `n ≤ cols * rows`. -/
lemma le_mul_gridRows {n : Nat} (hn : 1 ≤ n) : n ≤ gridCols n * gridRows n := by
  have hc := gridCols_pos hn
  have hdm := Nat.div_add_mod (n + gridCols n - 1) (gridCols n)
  have hmod : (n + gridCols n - 1) % gridCols n < gridCols n := Nat.mod_lt _ hc
  unfold gridRows ceilDiv
  omega

/-- `gridRows n` is the least `r` with `n ≤ cols * r`. -/
lemma gridRows_le {n r : Nat} (hn : 1 ≤ n) (h : n ≤ gridCols n * r) : gridRows n ≤ r := by
  have hc := gridCols_pos hn
  unfold gridRows ceilDiv
  rw [Nat.div_le_iff_le_mul_add_pred hc]
  omega

/-! ## Arithmetic of the modelled splitter bands -/

lemma rawStart_le_rawEnd (pos len k s i : Nat) :
    rawStart pos len k s i ≤ rawEnd pos len k s i := by
  unfold rawStart rawEnd
  have h1 : i * ((len - (k - 1) * s) / k) ≤ (i + 1) * ((len - (k - 1) * s) / k) :=
    Nat.mul_le_mul_right _ (by omega)
  omega

lemma rawStart_succ (pos len k s i : Nat) :
    rawStart pos len k s (i + 1) = rawEnd pos len k s i + s := by
  unfold rawStart rawEnd
  have h1 : (i + 1) * s = i * s + s := by ring
  omega

lemma pos_le_bandStart (pos len k s i : Nat) : pos ≤ bandStart pos len k s i := by
  unfold bandStart rawStart
  omega

lemma bandEnd_le_pos_add_len (pos len k s i : Nat) :
    bandEnd pos len k s i ≤ pos + len := by
  unfold bandEnd
  omega

lemma bandStart_le_bandEnd (pos len k s i : Nat) :
    bandStart pos len k s i ≤ bandEnd pos len k s i := by
  have := rawStart_le_rawEnd pos len k s i
  unfold bandStart bandEnd
  omega

lemma bandStart_add_bandLen (pos len k s i : Nat) :
    bandStart pos len k s i + bandLen pos len k s i = bandEnd pos len k s i := by
  have := bandStart_le_bandEnd pos len k s i
  unfold bandLen
  omega

lemma bandStart_le_bandStart_succ (pos len k s i : Nat) :
    bandStart pos len k s i ≤ bandStart pos len k s (i + 1) := by
  have h1 := rawStart_succ pos len k s i
  have h2 := rawStart_le_rawEnd pos len k s i
  unfold bandStart
  omega

/-- Strict increase of band starts: holds when the sum of the spacing and the
previous band's size is positive and the previous band starts strictly inside
the extent. -/
lemma bandStart_succ_lt (pos len k s i : Nat)
    (hpos : 0 < s + bandLen pos len k s i)
    (hin : bandStart pos len k s i < pos + len) :
    bandStart pos len k s i < bandStart pos len k s (i + 1) := by
  have h1 := rawStart_succ pos len k s i
  have h2 := rawStart_le_rawEnd pos len k s i
  unfold bandLen bandStart bandEnd at *
  omega

/-- When the total spacing fits in the extent, no band overruns it. -/
lemma rawEnd_le_of_fit (pos len k s i : Nat) (hi : i < k)
    (hfit : (k - 1) * s ≤ len) : rawEnd pos len k s i ≤ pos + len := by
  unfold rawEnd
  have hk : 0 < k := by omega
  set A := len - (k - 1) * s with hA
  have hdm := Nat.div_add_mod A k
  have h1 : (i + 1) * (A / k) ≤ k * (A / k) := Nat.mul_le_mul_right _ (by omega)
  have h2 : i * s ≤ (k - 1) * s := Nat.mul_le_mul_right _ (by omega)
  omega

/-- When the total spacing fits, consecutive bands are exactly `s` apart:
the next band starts `s` after the previous one ends. -/
lemma bandGap_of_fit (pos len k s i : Nat) (hi : i + 1 < k)
    (hfit : (k - 1) * s ≤ len) :
    bandStart pos len k s (i + 1) = bandEnd pos len k s i + s := by
  have h1 := rawStart_succ pos len k s i
  have h2 : rawEnd pos len k s (i + 1) ≤ pos + len :=
    rawEnd_le_of_fit pos len k s (i + 1) hi hfit
  have h3 : rawEnd pos len k s i ≤ pos + len :=
    rawEnd_le_of_fit pos len k s i (by omega) hfit
  have h4 := rawStart_le_rawEnd pos len k s (i + 1)
  unfold bandStart bandEnd
  omega

/-- Core monotonicity of the remainder distribution: the first `i` shares of
`A` exceed the first `i` shares of `B` by at most `i * t` when `A ≤ B + t * k`. -/
lemma shares_le (i t : Nat) {k A B : Nat} (hk : 0 < k) (h : A ≤ B + t * k) :
    i * (A / k) + min i (A % k) ≤ i * (B / k) + min i (B % k) + i * t := by
  have hdiv : A / k ≤ B / k + t := by
    calc A / k ≤ (B + t * k) / k := Nat.div_le_div_right h
    _ = B / k + t := Nat.add_mul_div_right B t hk
  rcases Nat.lt_or_ge (A / k) (B / k + t) with hlt | hge
  · have e1 : i * (A / k + 1) = i * (A / k) + i := by ring
    have e2 : i * (B / k + t) = i * (B / k) + i * t := by ring
    have e3 : i * (A / k + 1) ≤ i * (B / k + t) := Nat.mul_le_mul_left i (by omega)
    omega
  · have heq : A / k = B / k + t := by omega
    have hA := Nat.div_add_mod A k
    have hB := Nat.div_add_mod B k
    have e1 : k * (A / k) = k * (B / k) + k * t := by rw [heq]; ring
    have e2 : k * t = t * k := Nat.mul_comm k t
    have e3 : i * (A / k) = i * (B / k) + i * t := by rw [heq]; ring
    omega

/-- Increasing the spacing decreases the available extent by at most
`(s2 - s1) * k` units. -/
lemma avail_le {len k s1 s2 : Nat} (hs : s1 ≤ s2) :
    len - (k - 1) * s1 ≤ (len - (k - 1) * s2) + (s2 - s1) * k := by
  have e0 : s1 + (s2 - s1) = s2 := by omega
  have e1 : (k - 1) * s2 = (k - 1) * s1 + (k - 1) * (s2 - s1) := by
    rw [← Nat.mul_add, e0]
  have e2 : (k - 1) * (s2 - s1) ≤ (s2 - s1) * k := by
    calc (k - 1) * (s2 - s1) ≤ k * (s2 - s1) := Nat.mul_le_mul_right _ (by omega)
    _ = (s2 - s1) * k := Nat.mul_comm k _
  omega

/-- Band starts move right (or stay) as the spacing grows. -/
lemma rawStart_mono_s (pos len k s1 s2 i : Nat) (hk : 0 < k) (hs : s1 ≤ s2) :
    rawStart pos len k s1 i ≤ rawStart pos len k s2 i := by
  have h := shares_le i (s2 - s1) hk (@avail_le len k s1 s2 hs)
  unfold rawStart
  have e : i * (s2 - s1) + i * s1 = i * s2 := by
    rw [← Nat.mul_add]
    congr 1
    omega
  omega

lemma bandStart_mono_s (pos len k s1 s2 i : Nat) (hk : 0 < k) (hs : s1 ≤ s2) :
    bandStart pos len k s1 i ≤ bandStart pos len k s2 i := by
  have := rawStart_mono_s pos len k s1 s2 i hk hs
  unfold bandStart
  omega

/-- Band sizes grow with the available extent. -/
lemma size_le {k A B : Nat} (hk : 0 < k) (hAB : B ≤ A) (i : Nat) :
    B / k + (min (i + 1) (B % k) - min i (B % k))
      ≤ A / k + (min (i + 1) (A % k) - min i (A % k)) := by
  have hdiv : B / k ≤ A / k := Nat.div_le_div_right hAB
  rcases Nat.lt_or_ge (B / k) (A / k) with hlt | hge
  · have hb : B % k < k := Nat.mod_lt _ hk
    omega
  · have heq : B / k = A / k := by omega
    have hA := Nat.div_add_mod A k
    have hB := Nat.div_add_mod B k
    have e : k * (B / k) = k * (A / k) := by rw [heq]
    omega

/-- A band's end is its start plus its share of the extent. -/
lemma rawEnd_eq (pos len k s i : Nat) :
    rawEnd pos len k s i = rawStart pos len k s i
      + ((len - (k - 1) * s) / k
         + (min (i + 1) ((len - (k - 1) * s) % k) - min i ((len - (k - 1) * s) % k))) := by
  unfold rawStart rawEnd
  have e : (i + 1) * ((len - (k - 1) * s) / k)
      = i * ((len - (k - 1) * s) / k) + (len - (k - 1) * s) / k := by ring
  omega

/-- Band sizes never grow as the spacing grows. -/
lemma bandLen_anti_s (pos len k s1 s2 i : Nat) (hk : 0 < k) (hs : s1 ≤ s2) :
    bandLen pos len k s2 i ≤ bandLen pos len k s1 i := by
  have hr := rawStart_mono_s pos len k s1 s2 i hk hs
  have hA : len - (k - 1) * s2 ≤ len - (k - 1) * s1 :=
    Nat.sub_le_sub_left (Nat.mul_le_mul_left _ hs) len
  have hsz := size_le hk hA i
  have he1 := rawEnd_eq pos len k s1 i
  have he2 := rawEnd_eq pos len k s2 i
  unfold bandLen bandStart bandEnd
  omega

/-! ## From the loops to a closed form -/

lemma length_splitVertical (area : Rect) (k s : Nat) :
    (splitVertical area k s).length = k := by
  simp [splitVertical]

lemma length_splitHorizontal (area : Rect) (k s : Nat) :
    (splitHorizontal area k s).length = k := by
  simp [splitHorizontal]

/-- The inner loop appends cells until the output reaches `n` elements. -/
lemma pushCells_eq (n : Nat) :
    ∀ (cs out : List Rect), out.length ≤ n →
      pushCells n out cs = out ++ cs.take (n - out.length) := by
  intro cs
  induction cs with
  | nil =>
      intro out h
      simp [pushCells]
  | cons c cs ih =>
      intro out h
      by_cases he : out.length = n
      · simp [pushCells, he]
      · simp only [pushCells, if_neg he]
        rw [ih (out ++ [c]) (by simp; omega)]
        have h2 : n - out.length = n - (out ++ [c]).length + 1 := by simp; omega
        rw [h2, List.take_succ_cons]
        simp

/-- The outer loop walks the row bands, appending each row's cells until the
output reaches `n` elements. -/
lemma pushRows_eq (cols s n : Nat) :
    ∀ (ras out : List Rect), out.length ≤ n →
      pushRows cols s n out ras
        = out ++ ((ras.map fun ra => splitHorizontal ra cols s).flatten).take
            (n - out.length) := by
  intro ras
  induction ras with
  | nil =>
      intro out h
      simp [pushRows]
  | cons ra rest ih =>
      intro out h
      simp only [pushRows, List.map_cons, List.flatten_cons]
      rw [pushCells_eq n _ out h]
      set cells := splitHorizontal ra cols s with hc
      have hlen : (out ++ cells.take (n - out.length)).length
          = out.length + min (n - out.length) cells.length := by simp
      by_cases hdone : (out ++ cells.take (n - out.length)).length = n
      · rw [if_pos hdone]
        have hge : n - out.length ≤ cells.length := by omega
        rw [List.take_append_of_le_length hge]
      · rw [if_neg hdone]
        have hcl : cells.length ≤ n - out.length := by omega
        rw [ih _ (by omega)]
        have hall : cells.take (n - out.length) = cells :=
          List.take_of_length_le hcl
        rw [hall, List.take_append_eq_append_take, hall]
        simp only [List.append_assoc]
        congr 2
        simp
        omega

/-- `auto_grid` returns the first `n` cells of the full row-major grid. -/
lemma auto_grid_eq_take (area : Rect) (n s : Nat) :
    auto_grid area n s = (fullCells area n s).take n := by
  by_cases hn : n = 0
  · simp [auto_grid, hn]
  · simp only [auto_grid, if_neg hn]
    rw [pushRows_eq _ _ _ _ [] (by simp)]
    simp [fullCells]

/-- Flattening a rectangular map over ranges enumerates pairs in row-major
order. -/
lemma flatten_map_range {α : Type} (f : Nat → Nat → α) (C : Nat) :
    ∀ R, ((List.range R).map fun r => (List.range C).map (f r)).flatten
      = (List.range (R * C)).map fun j => f (j / C) (j % C) := by
  rcases Nat.eq_zero_or_pos C with hC | hC
  · intro R
    subst hC
    simp
  · intro R
    induction R with
    | zero => simp
    | succ R ih =>
        rw [List.range_succ, List.map_append, List.flatten_append, ih]
        have e : (R + 1) * C = R * C + C := by ring
        rw [e, List.range_add, List.map_append, List.map_map]
        simp only [List.map_cons, List.map_nil, List.flatten_cons, List.flatten_nil,
          List.append_nil]
        congr 1
        refine List.map_congr_left ?_
        intro x hx
        have hxC : x < C := List.mem_range.mp hx
        have h1 : (R * C + x) / C = R := by
          rw [Nat.add_comm, Nat.add_mul_div_right x R hC, Nat.div_eq_of_lt hxC,
            Nat.zero_add]
        have h2 : (R * C + x) % C = x := by
          rw [Nat.add_comm, Nat.add_mul_mod_self_right, Nat.mod_eq_of_lt hxC]
        simp [Function.comp, h1, h2]

/-- The full grid in closed form: cell `j` sits in column `j % cols` of row
`j / cols`. -/
lemma fullCells_eq_map (area : Rect) (n s : Nat) :
    fullCells area n s
      = (List.range (gridRows n * gridCols n)).map
          (gridCell area (gridCols n) (gridRows n) s) := by
  have e1 : fullCells area n s
      = ((List.range (gridRows n)).map fun r => (List.range (gridCols n)).map fun c =>
          ({ x := bandStart area.x area.width (gridCols n) s c
             y := bandStart area.y area.height (gridRows n) s r
             width := bandLen area.x area.width (gridCols n) s c
             height := bandLen area.y area.height (gridRows n) s r } : Rect)).flatten := by
    unfold fullCells splitVertical
    rw [List.map_map]
    congr 1
  rw [e1, flatten_map_range]
  rfl

/-- `auto_grid` in closed form: the `j`-th output is `gridCell _ _ _ _ j`. -/
lemma auto_grid_eq_map (area : Rect) {n : Nat} (s : Nat) (hn : 1 ≤ n) :
    auto_grid area n s
      = (List.range n).map (gridCell area (gridCols n) (gridRows n) s) := by
  rw [auto_grid_eq_take, fullCells_eq_map, ← List.map_take, List.take_range]
  have hle : n ≤ gridRows n * gridCols n := by
    have h1 := le_mul_gridRows hn
    have h2 := Nat.mul_comm (gridRows n) (gridCols n)
    omega
  rw [Nat.min_eq_left hle]

/-- The output always has length exactly `n`. -/
lemma auto_grid_length (area : Rect) (n s : Nat) :
    (auto_grid area n s).length = n := by
  by_cases hn : n = 0
  · simp [auto_grid, hn]
  · rw [auto_grid_eq_map area s (by omega)]
    simp

lemma auto_grid_getElem (area : Rect) {n : Nat} (s j : Nat) (hj : j < n) :
    (auto_grid area n s)[j]?
      = some (gridCell area (gridCols n) (gridRows n) s j) := by
  rw [auto_grid_eq_map area s (by omega)]
  simp [List.getElem?_map, List.getElem?_range, hj]

/-- Element access on the output, in closed form. -/
lemma auto_grid_get (area : Rect) (n s j : Nat)
    (h : j < (auto_grid area n s).length) :
    (auto_grid area n s).get ⟨j, h⟩
      = gridCell area (gridCols n) (gridRows n) s j := by
  have hj : j < n := by
    have := auto_grid_length area n s
    omega
  have h1 : (auto_grid area n s)[j]? = some ((auto_grid area n s).get ⟨j, h⟩) := by
    rw [List.getElem?_eq_getElem h]
    simp
  rw [auto_grid_getElem area s j hj] at h1
  exact (Option.some_inj.mp h1).symm

/-! ## Row and column index bookkeeping -/

lemma succ_div_mod_of_mod_ne {j k : Nat} (h : (j + 1) % k ≠ 0) :
    (j + 1) / k = j / k ∧ (j + 1) % k = j % k + 1 := by
  have hsd := Nat.succ_div j k
  have hnd : ¬ k ∣ j + 1 := fun hd => h (Nat.dvd_iff_mod_eq_zero.mp hd)
  rw [if_neg hnd] at hsd
  have hdiv : (j + 1) / k = j / k := by omega
  refine ⟨hdiv, ?_⟩
  have e1 := Nat.div_add_mod j k
  have e2 := Nat.div_add_mod (j + 1) k
  have e3 : k * ((j + 1) / k) = k * (j / k) := by rw [hdiv]
  omega

lemma succ_div_of_mod_eq {j k : Nat} (h : (j + 1) % k = 0) :
    (j + 1) / k = j / k + 1 := by
  have hsd := Nat.succ_div j k
  have hd : k ∣ j + 1 := Nat.dvd_iff_mod_eq_zero.mpr h
  rw [if_pos hd] at hsd
  omega

lemma div_lt_rows {j n : Nat} (hn : 1 ≤ n) (hj : j < n) :
    j / gridCols n < gridRows n := by
  have hc := gridCols_pos hn
  have hle := le_mul_gridRows hn
  rw [Nat.div_lt_iff_lt_mul hc]
  calc j < n := hj
  _ ≤ gridCols n * gridRows n := hle
  _ = gridRows n * gridCols n := Nat.mul_comm _ _

/-! ## Claims -/

/-- C1: for every area, every spacing and every representable `n`,
`auto_grid area n spacing` returns a sequence of length exactly `n`, and the
sequence is empty if and only if `n = 0`. -/
theorem auto_grid_count (area : Rect) (n s : Nat) :
    (auto_grid area n s).length = n ∧ (auto_grid area n s = [] ↔ n = 0) := by
  have h := auto_grid_length area n s
  exact ⟨h, List.length_eq_zero.symm.trans (by rw [h])⟩

/-- C2: for every area, spacing and `n ≥ 1`, every rectangle returned by
`auto_grid` lies within the input area: `x ≥ area.x`, `y ≥ area.y`,
`x + width ≤ area.x + area.width` and `y + height ≤ area.y + area.height`. -/
theorem auto_grid_within_bounds (area : Rect) (n s : Nat) (hn : 1 ≤ n) :
    ∀ r ∈ auto_grid area n s,
      area.x ≤ r.x ∧ area.y ≤ r.y ∧
      r.x + r.width ≤ area.x + area.width ∧
      r.y + r.height ≤ area.y + area.height := by
  rw [auto_grid_eq_map area s hn]
  intro r hr
  rw [List.mem_map] at hr
  obtain ⟨j, hj, rfl⟩ := hr
  simp only [gridCell]
  refine ⟨pos_le_bandStart _ _ _ _ _, pos_le_bandStart _ _ _ _ _, ?_, ?_⟩
  · have e1 := bandStart_add_bandLen area.x area.width (gridCols n) s (j % gridCols n)
    have e2 := bandEnd_le_pos_add_len area.x area.width (gridCols n) s (j % gridCols n)
    omega
  · have e1 := bandStart_add_bandLen area.y area.height (gridRows n) s (j / gridCols n)
    have e2 := bandEnd_le_pos_add_len area.y area.height (gridRows n) s (j / gridCols n)
    omega

theorem auto_grid_within_bounds_witness :
    (1 ≤ 4 ∧ (⟨50, 50, 50, 50⟩ : Rect) ∈ auto_grid ⟨0, 0, 100, 100⟩ 4 0) ∧
    ((0 : Nat) ≤ 50 ∧ (0 : Nat) ≤ 50 ∧
      50 + 50 ≤ (0 : Nat) + 100 ∧ 50 + 50 ≤ (0 : Nat) + 100) :=
  ⟨⟨by decide, by decide⟩,
   auto_grid_within_bounds ⟨0, 0, 100, 100⟩ 4 0 (by decide) ⟨50, 50, 50, 50⟩ (by decide)⟩

/-- C3: for every `n ≥ 1`, `cols` is `⌈√n⌉` — the least `c` with `c * c ≥ n`
— and `rows` is `⌈n / cols⌉` — the least `r` with `cols * r ≥ n` — so
`cols * rows ≥ n`; in particular `n = 1` gives 1×1, `n = 9` gives 3 columns
and 3 rows, and `n = 6` gives 3 columns and 2 rows. -/
theorem grid_dims_spec (n : Nat) (hn : 1 ≤ n) :
    (n ≤ gridCols n * gridCols n ∧ ∀ c, n ≤ c * c → gridCols n ≤ c) ∧
    (n ≤ gridCols n * gridRows n ∧ ∀ r, n ≤ gridCols n * r → gridRows n ≤ r) ∧
    gridCols 1 = 1 ∧ gridRows 1 = 1 ∧
    gridCols 9 = 3 ∧ gridRows 9 = 3 ∧
    gridCols 6 = 3 ∧ gridRows 6 = 2 :=
  ⟨⟨sq_ceilSqrt_ge n, fun _ hc => ceilSqrt_le hc⟩,
   ⟨le_mul_gridRows hn, fun _ hr => gridRows_le hn hr⟩,
   by decide, by decide, by decide, by decide, by decide, by decide⟩

theorem grid_dims_spec_witness :
    1 ≤ 5 ∧ 5 ≤ gridCols 5 * gridCols 5 ∧ gridCols 5 ≤ 3 ∧
    5 ≤ gridCols 5 * gridRows 5 :=
  ⟨by decide, (grid_dims_spec 5 (by decide)).1.1,
   (grid_dims_spec 5 (by decide)).1.2 3 (by decide),
   (grid_dims_spec 5 (by decide)).2.1.1⟩

/-- C4: for every area and spacing, `auto_grid area 1 spacing` returns
exactly one rectangle, equal to the full input area — the spacing has no
effect. -/
theorem auto_grid_single (area : Rect) (s : Nat) : auto_grid area 1 s = [area] := by
  have h1 : gridCols 1 = 1 := by decide
  have h2 : gridRows 1 = 1 := by decide
  rw [auto_grid_eq_map area s (by omega), h1, h2]
  have ex : bandStart area.x area.width 1 s 0 = area.x := by
    unfold bandStart rawStart
    omega
  have ey : bandStart area.y area.height 1 s 0 = area.y := by
    unfold bandStart rawStart
    omega
  have ew : bandLen area.x area.width 1 s 0 = area.width := by
    unfold bandLen bandEnd bandStart rawStart rawEnd
    omega
  have eh : bandLen area.y area.height 1 s 0 = area.height := by
    unfold bandLen bandEnd bandStart rawStart rawEnd
    omega
  have hr : List.range 1 = [0] := by decide
  rw [hr, List.map_cons, List.map_nil]
  have ej : gridCell area 1 1 s 0 = area := by
    unfold gridCell
    simp only [Nat.zero_mod, Nat.zero_div]
    rw [ex, ey, ew, eh]
  rw [ej]

/-- C5: `auto_grid` on the area (0,0,100,100) with `n = 4`, `spacing = 0`
returns four 50×50 rectangles at (0,0), (50,0), (0,50), (50,50), in that
order. -/
theorem auto_grid_four_cells :
    auto_grid ⟨0, 0, 100, 100⟩ 4 0 =
      [⟨0, 0, 50, 50⟩, ⟨50, 0, 50, 50⟩, ⟨0, 50, 50, 50⟩, ⟨50, 50, 50, 50⟩] := by
  decide

/-- C6 as stated is false: on an area of height 0 (n = 4, spacing 0, cols =
2), indices 1 and 2 cross a row boundary but the y-coordinate does not
strictly increase. -/
theorem auto_grid_row_major_cex :
    gridCols 4 = 2 ∧
    (auto_grid ⟨0, 0, 10, 0⟩ 4 0).length = 4 ∧
    ¬ ((auto_grid ⟨0, 0, 10, 0⟩ 4 0).get ⟨1, by decide⟩).y
        < ((auto_grid ⟨0, 0, 10, 0⟩ 4 0).get ⟨2, by decide⟩).y := by
  decide

/-- C6 amended: consecutive cells in the same row have equal y; across a row
boundary the y-coordinate never decreases, and strictly increases whenever
spacing and the earlier cell's height are not both zero and the earlier
cell's top edge lies strictly above the area's bottom edge. -/
theorem auto_grid_row_major (area : Rect) (n s j : Nat)
    (h1 : j < (auto_grid area n s).length) (h2 : j + 1 < (auto_grid area n s).length) :
    ((j + 1) % gridCols n ≠ 0 →
      ((auto_grid area n s).get ⟨j, h1⟩).y = ((auto_grid area n s).get ⟨j + 1, h2⟩).y) ∧
    ((j + 1) % gridCols n = 0 →
      ((auto_grid area n s).get ⟨j, h1⟩).y ≤ ((auto_grid area n s).get ⟨j + 1, h2⟩).y ∧
      (0 < s + ((auto_grid area n s).get ⟨j, h1⟩).height →
        ((auto_grid area n s).get ⟨j, h1⟩).y < area.y + area.height →
        ((auto_grid area n s).get ⟨j, h1⟩).y
          < ((auto_grid area n s).get ⟨j + 1, h2⟩).y)) := by
  rw [auto_grid_get, auto_grid_get]
  simp only [gridCell]
  constructor
  · intro hne
    rw [(succ_div_mod_of_mod_ne hne).1]
  · intro heq
    rw [succ_div_of_mod_eq heq]
    refine ⟨bandStart_le_bandStart_succ _ _ _ _ _, ?_⟩
    intro hpos hin
    exact bandStart_succ_lt _ _ _ _ _ hpos hin

theorem auto_grid_row_major_witness :
    (2 < (auto_grid ⟨0, 0, 100, 100⟩ 6 0).length ∧
     3 < (auto_grid ⟨0, 0, 100, 100⟩ 6 0).length) ∧
    ((auto_grid ⟨0, 0, 100, 100⟩ 6 0).get ⟨2, by decide⟩).y
      < ((auto_grid ⟨0, 0, 100, 100⟩ 6 0).get ⟨3, by decide⟩).y :=
  ⟨⟨by decide, by decide⟩,
   ((auto_grid_row_major ⟨0, 0, 100, 100⟩ 6 0 2 (by decide) (by decide)).2
     (by decide)).2 (by decide) (by decide)⟩

/-- C7 as stated is false: with fixed area (0,0,10,10) and `n = 9`, raising
the spacing from 5 to 6 shrinks the gap between the facing edges of the
adjacent cells 1 and 2 from 5 to 4. -/
theorem auto_grid_spacing_mono_cex :
    (5 : Nat) ≤ 6 ∧
    ((auto_grid ⟨0, 0, 10, 10⟩ 9 6).get ⟨2, by decide⟩).x
        - (((auto_grid ⟨0, 0, 10, 10⟩ 9 6).get ⟨1, by decide⟩).x
            + ((auto_grid ⟨0, 0, 10, 10⟩ 9 6).get ⟨1, by decide⟩).width)
      < ((auto_grid ⟨0, 0, 10, 10⟩ 9 5).get ⟨2, by decide⟩).x
        - (((auto_grid ⟨0, 0, 10, 10⟩ 9 5).get ⟨1, by decide⟩).x
            + ((auto_grid ⟨0, 0, 10, 10⟩ 9 5).get ⟨1, by decide⟩).width) := by
  decide

/-- C7 amended: for `s1 ≤ s2` no cell's width or height grows; and provided
the total spacing fits in the corresponding axis, adjacent cells' facing
edges are exactly `spacing` apart — the next cell in a row starts `spacing`
after the previous one ends, and the cell below starts `spacing` below the
cell above — so the gap does not decrease. -/
theorem auto_grid_spacing_mono (area : Rect) (n s1 s2 j : Nat)
    (hs : s1 ≤ s2) (hn : 1 ≤ n)
    (h1 : j < (auto_grid area n s1).length)
    (h2 : j < (auto_grid area n s2).length) :
    (((auto_grid area n s2).get ⟨j, h2⟩).width
        ≤ ((auto_grid area n s1).get ⟨j, h1⟩).width ∧
     ((auto_grid area n s2).get ⟨j, h2⟩).height
        ≤ ((auto_grid area n s1).get ⟨j, h1⟩).height) ∧
    (∀ (hb1 : j + 1 < (auto_grid area n s1).length)
       (hb2 : j + 1 < (auto_grid area n s2).length),
      (j + 1) % gridCols n ≠ 0 → (gridCols n - 1) * s2 ≤ area.width →
        ((auto_grid area n s1).get ⟨j + 1, hb1⟩).x
            = ((auto_grid area n s1).get ⟨j, h1⟩).x
              + ((auto_grid area n s1).get ⟨j, h1⟩).width + s1 ∧
        ((auto_grid area n s2).get ⟨j + 1, hb2⟩).x
            = ((auto_grid area n s2).get ⟨j, h2⟩).x
              + ((auto_grid area n s2).get ⟨j, h2⟩).width + s2) ∧
    (∀ (hv1 : j + gridCols n < (auto_grid area n s1).length)
       (hv2 : j + gridCols n < (auto_grid area n s2).length),
      (gridRows n - 1) * s2 ≤ area.height →
        ((auto_grid area n s1).get ⟨j + gridCols n, hv1⟩).y
            = ((auto_grid area n s1).get ⟨j, h1⟩).y
              + ((auto_grid area n s1).get ⟨j, h1⟩).height + s1 ∧
        ((auto_grid area n s2).get ⟨j + gridCols n, hv2⟩).y
            = ((auto_grid area n s2).get ⟨j, h2⟩).y
              + ((auto_grid area n s2).get ⟨j, h2⟩).height + s2) := by
  have hc := gridCols_pos hn
  have hrw := gridRows_pos hn
  refine ⟨?_, ?_, ?_⟩
  · rw [auto_grid_get, auto_grid_get]
    simp only [gridCell]
    exact ⟨bandLen_anti_s _ _ _ _ _ _ (by omega) hs,
      bandLen_anti_s _ _ _ _ _ _ (by omega) hs⟩
  · intro hb1 hb2 hne hfit
    rw [auto_grid_get, auto_grid_get, auto_grid_get, auto_grid_get]
    simp only [gridCell]
    obtain ⟨hdiv, hmod⟩ := succ_div_mod_of_mod_ne hne
    rw [hmod]
    have hmlt : (j + 1) % gridCols n < gridCols n := Nat.mod_lt _ hc
    have hilt : j % gridCols n + 1 < gridCols n := by omega
    have hfit1 : (gridCols n - 1) * s1 ≤ area.width := by
      have := Nat.mul_le_mul_left (gridCols n - 1) hs
      omega
    have g1 := bandGap_of_fit area.x area.width (gridCols n) s1 (j % gridCols n) hilt hfit1
    have g2 := bandGap_of_fit area.x area.width (gridCols n) s2 (j % gridCols n) hilt hfit
    have a1 := bandStart_add_bandLen area.x area.width (gridCols n) s1 (j % gridCols n)
    have a2 := bandStart_add_bandLen area.x area.width (gridCols n) s2 (j % gridCols n)
    omega
  · intro hv1 hv2 hfit
    rw [auto_grid_get, auto_grid_get, auto_grid_get, auto_grid_get]
    simp only [gridCell]
    have hlen := auto_grid_length area n s1
    have hjn : j + gridCols n < n := by omega
    have hrlt : j / gridCols n + 1 < gridRows n := by
      have hd := div_lt_rows hn hjn
      rw [Nat.add_div_right j hc] at hd
      exact hd
    rw [Nat.add_div_right j hc]
    have hfit1 : (gridRows n - 1) * s1 ≤ area.height := by
      have := Nat.mul_le_mul_left (gridRows n - 1) hs
      omega
    have g1 := bandGap_of_fit area.y area.height (gridRows n) s1 (j / gridCols n) hrlt hfit1
    have g2 := bandGap_of_fit area.y area.height (gridRows n) s2 (j / gridCols n) hrlt hfit
    have a1 := bandStart_add_bandLen area.y area.height (gridRows n) s1 (j / gridCols n)
    have a2 := bandStart_add_bandLen area.y area.height (gridRows n) s2 (j / gridCols n)
    omega

theorem auto_grid_spacing_mono_witness :
    (1 ≤ 2 ∧ 1 ≤ 6 ∧
     0 < (auto_grid ⟨0, 0, 100, 100⟩ 6 1).length ∧
     0 < (auto_grid ⟨0, 0, 100, 100⟩ 6 2).length) ∧
    ((auto_grid ⟨0, 0, 100, 100⟩ 6 2).get ⟨0, by decide⟩).width
      ≤ ((auto_grid ⟨0, 0, 100, 100⟩ 6 1).get ⟨0, by decide⟩).width ∧
    ((auto_grid ⟨0, 0, 100, 100⟩ 6 2).get ⟨1, by decide⟩).x
      = ((auto_grid ⟨0, 0, 100, 100⟩ 6 2).get ⟨0, by decide⟩).x
        + ((auto_grid ⟨0, 0, 100, 100⟩ 6 2).get ⟨0, by decide⟩).width + 2 :=
  ⟨⟨by decide, by decide, by decide, by decide⟩,
   (auto_grid_spacing_mono ⟨0, 0, 100, 100⟩ 6 1 2 0 (by decide) (by decide)
     (by decide) (by decide)).1.1,
   ((auto_grid_spacing_mono ⟨0, 0, 100, 100⟩ 6 1 2 0 (by decide) (by decide)
     (by decide) (by decide)).2.1 (by decide) (by decide) (by decide) (by decide)).2⟩

/-- C8: `auto_grid` truncates the row-major stream of `rows * cols` generated
cells to exactly `n`; for `n = 7` the selector yields a 3×3 grid and the
output is the first 7 of its 9 cells. -/
theorem auto_grid_truncates (area : Rect) (n s : Nat) :
    auto_grid area n s = (fullCells area n s).take n ∧
    (fullCells area n s).length = gridRows n * gridCols n ∧
    gridCols 7 = 3 ∧ gridRows 7 = 3 ∧
    (fullCells area 7 s).length = 9 ∧ (auto_grid area 7 s).length = 7 := by
  refine ⟨auto_grid_eq_take area n s, ?_, by decide, by decide, ?_,
    auto_grid_length area 7 s⟩
  · rw [fullCells_eq_map]
    simp
  · rw [fullCells_eq_map]
    simp only [List.length_map, List.length_range]
    decide

/-- C9: `auto_grid` is deterministic and referentially transparent — two
calls with identical inputs return identical sequences. -/
theorem auto_grid_deterministic (a1 a2 : Rect) (n1 n2 s1 s2 : Nat)
    (ha : a1 = a2) (hn : n1 = n2) (hs : s1 = s2) :
    auto_grid a1 n1 s1 = auto_grid a2 n2 s2 := by
  rw [ha, hn, hs]

theorem auto_grid_deterministic_witness :
    (⟨0, 0, 9, 9⟩ : Rect) = ⟨0, 0, 9, 9⟩ ∧
    auto_grid ⟨0, 0, 9, 9⟩ 3 1 = auto_grid ⟨0, 0, 9, 9⟩ 3 1 :=
  ⟨rfl, auto_grid_deterministic _ _ _ _ _ _ rfl rfl rfl⟩

/-- C10: for `n ≥ 1` the chosen `cols` and `rows` are both at least 1 (so the
`Ratio(1, rows)` and `Ratio(1, cols)` constraints never have a zero
denominator), the vertical split yields exactly `rows` row bands, and every
row index `r < rows` is in bounds for `row_areas[r]` — `auto_grid` cannot
panic. -/
theorem auto_grid_no_panic (area : Rect) (n s : Nat) (hn : 1 ≤ n) :
    1 ≤ gridCols n ∧ 1 ≤ gridRows n ∧
    (splitVertical area (gridRows n) s).length = gridRows n ∧
    ∀ r, r < gridRows n → r < (splitVertical area (gridRows n) s).length := by
  refine ⟨gridCols_pos hn, gridRows_pos hn, length_splitVertical area _ s, ?_⟩
  intro r hr
  rw [length_splitVertical]
  exact hr

theorem auto_grid_no_panic_witness :
    1 ≤ 2 ∧ 1 ≤ gridCols 2 ∧ 1 ≤ gridRows 2 ∧
    (splitVertical ⟨0, 0, 5, 5⟩ (gridRows 2) 0).length = gridRows 2 :=
  ⟨by decide, (auto_grid_no_panic ⟨0, 0, 5, 5⟩ 2 0 (by decide)).1,
   (auto_grid_no_panic ⟨0, 0, 5, 5⟩ 2 0 (by decide)).2.1,
   (auto_grid_no_panic ⟨0, 0, 5, 5⟩ 2 0 (by decide)).2.2.1⟩

